import Mathlib

/-!
Verification of the transcript-analysis core of `src/transcription_service.py`
(`TranscriptionService`): the three pure text operations
`create_simple_summary`, `extract_action_items` and `extract_key_points`.

Modelling conventions.  A Python string is a `List Char`.  Case mapping
(`str.lower`, `str.capitalize`) is the ASCII mapping, which is what these
operations perform on the ASCII texts at issue; `str.strip()` strips ASCII
whitespace; `re.split(r'[.!?]+', s)` splits `s` at maximal runs of delimiter
characters, keeping empty fragments exactly as Python does.
`create_simple_summary` returns an `Option` because the Python indexes
`sentences[0]` and `sentences[-1]`; a hypothetical `IndexError` is `none`.
-/

/-- The character list of a string literal (our model of a Python string). -/
def chars (s : String) : List Char := s.data

/-- Python `str.lower` on one character (ASCII mapping): `'A'..'Z'` map to
`'a'..'z'`, every other character is unchanged. -/
def pyLowerChar (c : Char) : Char :=
  if 65 ≤ c.toNat ∧ c.toNat ≤ 90 then Char.ofNat (c.toNat + 32) else c

/-- Python `str.upper` on one character (ASCII mapping). -/
def pyUpperChar (c : Char) : Char :=
  if 97 ≤ c.toNat ∧ c.toNat ≤ 122 then Char.ofNat (c.toNat - 32) else c

/-- Python `str.lower`. -/
def pyLower (l : List Char) : List Char := l.map pyLowerChar

/-- Python `str.capitalize`: the first character uppercased, all remaining
characters lowercased. -/
def pyCapitalize : List Char → List Char
  | [] => []
  | c :: cs => pyUpperChar c :: cs.map pyLowerChar

/-- ASCII whitespace, as stripped by Python `str.strip()`. -/
def isPySpace (c : Char) : Bool :=
  c == ' ' || c == '\t' || c == '\n' || c == '\r' || c == '\x0b' || c == '\x0c'

/-- Python `str.strip()`: remove whitespace from both ends. -/
def pyStrip (l : List Char) : List Char :=
  ((l.dropWhile isPySpace).reverse.dropWhile isPySpace).reverse

/-- Python `s.endswith(c)` for a single character `c`. -/
def pyEndsWith (l : List Char) (c : Char) : Bool :=
  match l.getLast? with
  | some d => d == c
  | none => false

/-- Does `h` start with `n`? (helper for the substring test). -/
def isPre : List Char → List Char → Bool
  | [], _ => true
  | _ :: _, [] => false
  | a :: as, b :: bs => a == b && isPre as bs

/-- Python substring containment `n in h`. -/
def containsSub (n : List Char) : List Char → Bool
  | [] => isPre n []
  | b :: bs => isPre n (b :: bs) || containsSub n bs

/-- The delimiter class of `re.split(r'[.!?]+', ...)`. -/
def isDelim3 (c : Char) : Bool := c == '.' || c == '!' || c == '?'

/-- The delimiter class `[.!?;]` used on the summary inside
`extract_key_points` (line 153). -/
def isDelim4 (c : Char) : Bool := c == '.' || c == '!' || c == '?' || c == ';'

/-- Model of `re.split` on one-or-more delimiter characters: the fragments
between maximal delimiter runs, empty fragments included (as in Python). -/
def splitRuns (ds : Char → Bool) : List Char → List (List Char)
  | [] => [[]]
  | c :: cs =>
    let r := splitRuns ds cs
    if ds c then
      match cs with
      | [] => [] :: r
      | d :: _ => if ds d then r else [] :: r
    else
      match r with
      | [] => [[c]]
      | f :: fs => (c :: f) :: fs

/-- The keyword list of `extract_action_items` (lines 108-114). -/
def action_keywords : List (List Char) :=
  [chars "need to", chars "should", chars "must", chars "have to", chars "will",
   chars "action", chars "todo", chars "to do", chars "follow up", chars "next step",
   chars "assign", chars "responsible", chars "deadline", chars "schedule",
   chars "contact", chars "email", chars "call", chars "meeting", chars "send",
   chars "remember", chars "don\x27t forget", chars "make sure"]

/-- Sentence normalization shared by both extractors (lines 128-130 and
157-159): `capitalize()`, then append `'.'` unless already `endswith('.')`. -/
def normalizeItem (s : List Char) : List Char :=
  let c := pyCapitalize s
  if pyEndsWith c '.' then c else c ++ ['.']

/-- The sentence scan loop of `extract_action_items` (lines 120-131). -/
def scanSentences : List (List Char) → List (List Char)
  | [] => []
  | s :: rest =>
    let t := pyStrip s
    if t.length < 5 then scanSentences rest
    else if action_keywords.any (fun k => containsSub k (pyLower t)) then
      normalizeItem t :: scanSentences rest
    else scanSentences rest

/-- The keyword-matched action items of a transcript: the scan, before the
content-based fallback of lines 133-140. -/
def keywordItems (t : List Char) : List (List Char) :=
  scanSentences (splitRuns isDelim3 t)

/-- Python method `TranscriptionService.extract_action_items` (lines 101-142). -/
def extract_action_items (t : List Char) : List (List Char) :=
  if t = [] then []
  else
    let items := keywordItems t
    let items :=
      if items = [] ∧ t ≠ [] then
        if containsSub (chars "meeting") (pyLower t) then
          [chars "Follow up on meeting discussion."]
        else if containsSub (chars "call") (pyLower t) then
          [chars "Review call notes and next steps."]
        else
          [chars "Review recording content for further action."]
      else items
    items.take 5

/-- The sentence list of `create_simple_summary` (lines 85-86): split, strip
each fragment, drop the fragments that are empty after stripping. -/
def sentencesOf (t : List Char) : List (List Char) :=
  ((splitRuns isDelim3 t).map pyStrip).filter (fun s => !s.isEmpty)

/-- Python method `TranscriptionService.create_simple_summary` (lines 77-99). -/
def create_simple_summary (t : List Char) : Option (List Char) :=
  if t = [] ∨ (pyStrip t).length < 10 then
    some (chars "Short audio clip with minimal content.")
  else
    let sentences := sentencesOf t
    if sentences.length ≤ 2 then
      some (chars "Brief audio containing: " ++ t.take 100 ++ chars "...")
    else
      match sentences.get? 0,
            (if 1 < sentences.length then sentences.get? (sentences.length - 1)
             else some []) with
      | some fp, some lp =>
        let s1 := chars "The audio discusses " ++ pyLower fp
        let s2 := if lp ≠ [] then s1 ++ chars " and concludes with " ++ pyLower lp else s1
        some (s2 ++ chars ".")
      | _, _ => none

/-- One point-collection loop of `extract_key_points` (lines 154-160 with
threshold 15, lines 165-171 with threshold 20): strip each fragment, keep it
when strictly longer than `thresh`, normalized. -/
def pointsFromFrags (thresh : Nat) : List (List Char) → List (List Char)
  | [] => []
  | p :: rest =>
    let q := pyStrip p
    if thresh < q.length then normalizeItem q :: pointsFromFrags thresh rest
    else pointsFromFrags thresh rest

/-- Step 1 of `extract_key_points` (lines 150-160): the points collected from
the summary. -/
def summaryPoints (s : List Char) : List (List Char) :=
  if s = [] then [] else pointsFromFrags 15 (splitRuns isDelim4 s)

/-- Steps 1-2 of `extract_key_points`: all points gathered before
deduplication.  Note line 165 slices the raw split `transcript_sentences[:3]`. -/
def gatherPoints (s t : List Char) : List (List Char) :=
  let points := summaryPoints s
  if points.length < 3 ∧ t ≠ [] then
    points ++ pointsFromFrags 20 ((splitRuns isDelim3 t).take 3)
  else points

/-- The `seen`-set deduplication loop of `extract_key_points` (lines 173-179). -/
def dedupLoop (seen : List (List Char)) : List (List Char) → List (List Char)
  | [] => []
  | p :: rest =>
    if pyLower p ∈ seen then dedupLoop seen rest
    else p :: dedupLoop (pyLower p :: seen) rest

/-- Python method `TranscriptionService.extract_key_points` (lines 144-181). -/
def extract_key_points (s t : List Char) : List (List Char) :=
  (dedupLoop [] (gatherPoints s t)).take 5

/-- Declarative first-occurrence deduplication keyed by `key`, following the
spec sentence "Deduplicate case-insensitively preserving first occurrence":
keep each element whose key did not occur earlier in the list. -/
def keepFirst (key : List Char → List Char) : List (List Char) → List (List Char)
  | [] => []
  | a :: as => a :: keepFirst key (as.filter (fun b => key b != key a))
termination_by l => l.length
decreasing_by
  simp_wf
  exact Nat.lt_succ_of_le (List.length_filter_le _ _)

/-- Python `str.isupper` on a single character (ASCII model). -/
def isUpA (c : Char) : Bool := decide (65 ≤ c.toNat ∧ c.toNat ≤ 90)

/-- Python `str.islower` on a single character (ASCII model). -/
def isLoA (c : Char) : Bool := decide (97 ≤ c.toNat ∧ c.toNat ≤ 122)

/-- Python `str.isalpha` on a single character (ASCII model). -/
def isAlA (c : Char) : Bool := isUpA c || isLoA c

/-- A string starting with an uppercase character, the reading of the spec's
"first character uppercase". -/
def startsUpper : List Char → Bool
  | [] => false
  | c :: _ => isUpA c

/-! ### Character-level facts -/

theorem charToNatOfNat {n : Nat} (h : n < 55296) : (Char.ofNat n).toNat = n := by
  have h2 : n.isValidChar := Or.inl h
  simp [Char.ofNat, h2, Char.ofNatAux, Char.toNat, UInt32.toNat, BitVec.toNat_ofNatLt]

theorem charEqOfToNat {c d : Char} (h : c.toNat = d.toNat) : c = d := by
  apply Char.eq_of_val_eq
  apply UInt32.eq_of_toBitVec_eq
  exact BitVec.eq_of_toNat_eq h

theorem charEqIffToNat (c d : Char) : c = d ↔ c.toNat = d.toNat :=
  ⟨fun h => congrArg Char.toNat h, charEqOfToNat⟩

theorem pyLowerChar_toNat (c : Char) :
    (pyLowerChar c).toNat =
      if 65 ≤ c.toNat ∧ c.toNat ≤ 90 then c.toNat + 32 else c.toNat := by
  unfold pyLowerChar
  split
  · next h => exact charToNatOfNat (by omega)
  · rfl

theorem pyUpperChar_toNat (c : Char) :
    (pyUpperChar c).toNat =
      if 97 ≤ c.toNat ∧ c.toNat ≤ 122 then c.toNat - 32 else c.toNat := by
  unfold pyUpperChar
  split
  · next h => exact charToNatOfNat (by omega)
  · rfl

theorem isDelim3_iff (c : Char) :
    isDelim3 c = true ↔ (c.toNat = 46 ∨ c.toNat = 33 ∨ c.toNat = 63) := by
  have h1 : ('.' : Char).toNat = 46 := rfl
  have h2 : ('!' : Char).toNat = 33 := rfl
  have h3 : ('?' : Char).toNat = 63 := rfl
  simp only [isDelim3, Bool.or_eq_true, beq_iff_eq, charEqIffToNat, h1, h2, h3]
  tauto

theorem isPySpace_iff (c : Char) :
    isPySpace c = true ↔
      (c.toNat = 32 ∨ c.toNat = 9 ∨ c.toNat = 10 ∨ c.toNat = 13 ∨
       c.toNat = 11 ∨ c.toNat = 12) := by
  have h1 : (' ' : Char).toNat = 32 := rfl
  have h2 : ('\t' : Char).toNat = 9 := rfl
  have h3 : ('\n' : Char).toNat = 10 := rfl
  have h4 : ('\r' : Char).toNat = 13 := rfl
  have h5 : ('\x0b' : Char).toNat = 11 := rfl
  have h6 : ('\x0c' : Char).toNat = 12 := rfl
  simp only [isPySpace, Bool.or_eq_true, beq_iff_eq, charEqIffToNat, h1, h2, h3, h4, h5, h6]
  tauto

theorem isDelim3_pyLowerChar (c : Char) : isDelim3 (pyLowerChar c) = isDelim3 c := by
  rw [Bool.eq_iff_iff, isDelim3_iff, isDelim3_iff, pyLowerChar_toNat]
  split <;> omega

theorem isPySpace_pyLowerChar (c : Char) : isPySpace (pyLowerChar c) = isPySpace c := by
  rw [Bool.eq_iff_iff, isPySpace_iff, isPySpace_iff, pyLowerChar_toNat]
  split <;> omega

theorem pyLowerChar_ne_dot {c : Char} (h : isDelim3 c = false) : pyLowerChar c ≠ '.' := by
  intro hc
  have h2 : isDelim3 (pyLowerChar c) = true := by rw [hc]; rfl
  rw [isDelim3_pyLowerChar, h] at h2
  exact Bool.false_ne_true h2

theorem pyUpperChar_fix (c : Char) : pyUpperChar (pyUpperChar c) = pyUpperChar c := by
  apply charEqOfToNat
  rw [pyUpperChar_toNat, pyUpperChar_toNat]
  split_ifs <;> omega

theorem isLoA_pyLowerChar {c : Char} (h : isAlA (pyLowerChar c) = true) :
    isLoA (pyLowerChar c) = true := by
  simp only [isAlA, isUpA, isLoA, Bool.or_eq_true, decide_eq_true_eq,
    pyLowerChar_toNat] at h ⊢
  split_ifs at h ⊢ <;> omega

/-! ### Facts about `splitRuns` -/

theorem splitRuns_cons_eq (ds : Char → Bool) (c : Char) (cs : List Char) :
    splitRuns ds (c :: cs) =
      if ds c then
        (match cs with
         | [] => [] :: splitRuns ds cs
         | d :: _ => if ds d then splitRuns ds cs else [] :: splitRuns ds cs)
      else
        (match splitRuns ds cs with
         | [] => [[c]]
         | f :: fs => (c :: f) :: fs) := rfl

theorem splitRuns_delim_nil (ds : Char → Bool) (c : Char) (h : ds c = true) :
    splitRuns ds [c] = [[], []] := by
  rw [splitRuns_cons_eq, if_pos h]
  rfl

theorem splitRuns_delim_delim (ds : Char → Bool) (c d : Char) (rest : List Char)
    (h : ds c = true) (hd : ds d = true) :
    splitRuns ds (c :: d :: rest) = splitRuns ds (d :: rest) := by
  rw [splitRuns_cons_eq, if_pos h]
  exact if_pos hd

theorem splitRuns_delim_not (ds : Char → Bool) (c d : Char) (rest : List Char)
    (h : ds c = true) (hd : ds d = false) :
    splitRuns ds (c :: d :: rest) = [] :: splitRuns ds (d :: rest) := by
  rw [splitRuns_cons_eq, if_pos h]
  exact if_neg (by simp [hd])

theorem splitRuns_ne_nil (ds : Char → Bool) (l : List Char) : splitRuns ds l ≠ [] := by
  induction l with
  | nil => simp [splitRuns]
  | cons c cs ih =>
    cases hc : ds c with
    | true =>
      cases cs with
      | nil => rw [splitRuns_delim_nil ds c hc]; simp
      | cons d rest =>
        cases hd : ds d with
        | true => rw [splitRuns_delim_delim ds c d rest hc hd]; exact ih
        | false => rw [splitRuns_delim_not ds c d rest hc hd]; simp
    | false =>
      rw [splitRuns_cons_eq, if_neg (by simp [hc])]
      split <;> simp

theorem splitRuns_cons_not (ds : Char → Bool) (c : Char) (cs : List Char) (h : ds c = false) :
    ∃ f fs, splitRuns ds cs = f :: fs ∧ splitRuns ds (c :: cs) = (c :: f) :: fs := by
  match hr : splitRuns ds cs with
  | [] => exact absurd hr (splitRuns_ne_nil ds cs)
  | f :: fs =>
    refine ⟨f, fs, rfl, ?_⟩
    rw [splitRuns_cons_eq, if_neg (by simp [h]), hr]

theorem splitRuns_mem_no_delim {ds : Char → Bool} {l f : List Char}
    (hf : f ∈ splitRuns ds l) : ∀ c ∈ f, ds c = false := by
  induction l generalizing f with
  | nil =>
    simp only [splitRuns, List.mem_singleton] at hf
    subst hf
    simp
  | cons c cs ih =>
    cases hc : ds c with
    | false =>
      obtain ⟨g, gs, hg, hg2⟩ := splitRuns_cons_not ds c cs hc
      rw [hg2] at hf
      rcases List.mem_cons.mp hf with rfl | hmem
      · intro x hx
        rcases List.mem_cons.mp hx with rfl | hx2
        · exact hc
        · exact ih (hg ▸ List.mem_cons_self g gs) x hx2
      · exact ih (hg ▸ List.mem_cons_of_mem g hmem)
    | true =>
      cases cs with
      | nil =>
        rw [splitRuns_delim_nil ds c hc] at hf
        rcases List.mem_cons.mp hf with rfl | hf2
        · simp
        · simp only [List.mem_singleton] at hf2
          subst hf2
          simp
      | cons d rest =>
        cases hd : ds d with
        | true =>
          rw [splitRuns_delim_delim ds c d rest hc hd] at hf
          exact ih hf
        | false =>
          rw [splitRuns_delim_not ds c d rest hc hd] at hf
          rcases List.mem_cons.mp hf with rfl | hmem
          · simp
          · exact ih hmem

theorem splitRuns_map {ds : Char → Bool} {f : Char → Char}
    (hf : ∀ c, ds (f c) = ds c) (l : List Char) :
    splitRuns ds (l.map f) = (splitRuns ds l).map (List.map f) := by
  induction l with
  | nil => rfl
  | cons c cs ih =>
    rw [List.map_cons]
    cases hc : ds c with
    | false =>
      obtain ⟨g, gs, hg, hg2⟩ := splitRuns_cons_not ds c cs hc
      obtain ⟨g2, gs2, hg3, hg4⟩ :=
        splitRuns_cons_not ds (f c) (cs.map f) ((hf c).trans hc)
      rw [hg4, hg2]
      rw [ih, hg, List.map_cons] at hg3
      injection hg3 with e1 e2
      rw [← e1, ← e2]
      simp
    | true =>
      cases cs with
      | nil =>
        rw [splitRuns_delim_nil ds c hc, List.map_nil,
          splitRuns_delim_nil ds (f c) ((hf c).trans hc)]
        rfl
      | cons d rest =>
        rw [List.map_cons]
        cases hd : ds d with
        | true =>
          rw [splitRuns_delim_delim ds c d rest hc hd,
            splitRuns_delim_delim ds (f c) (f d) (rest.map f) ((hf c).trans hc)
              ((hf d).trans hd),
            ← List.map_cons f d rest, ih]
        | false =>
          rw [splitRuns_delim_not ds c d rest hc hd,
            splitRuns_delim_not ds (f c) (f d) (rest.map f) ((hf c).trans hc)
              ((hf d).trans hd),
            ← List.map_cons f d rest, ih]
          rfl

/-! ### Facts about substring containment and stripping -/

theorem isPre_iff_exists (n : List Char) : ∀ h, (isPre n h = true ↔ ∃ b, n ++ b = h) := by
  induction n with
  | nil =>
    intro h
    simp [isPre]
  | cons a as ih =>
    intro h
    cases h with
    | nil => simp [isPre]
    | cons b bs =>
      simp only [isPre, Bool.and_eq_true, beq_iff_eq, ih]
      constructor
      · rintro ⟨rfl, t, rfl⟩
        exact ⟨t, rfl⟩
      · rintro ⟨t, ht⟩
        injection ht with h1 h2
        exact ⟨h1, t, h2⟩

theorem containsSub_nil_left (h : List Char) : containsSub [] h = true := by
  cases h <;> simp [containsSub, isPre]

theorem containsSub_parts (n h : List Char) :
    containsSub n h = true ↔ ∃ x y, x ++ n ++ y = h := by
  induction h with
  | nil =>
    rw [show containsSub n [] = isPre n [] from rfl, isPre_iff_exists]
    constructor
    · rintro ⟨y, hy⟩
      exact ⟨[], y, by simpa using hy⟩
    · rintro ⟨x, y, hxy⟩
      have hn : n = [] := by cases x <;> simp_all
      subst hn
      exact ⟨[], rfl⟩
  | cons b bs ih =>
    rw [show containsSub n (b :: bs) = (isPre n (b :: bs) || containsSub n bs) from rfl]
    simp only [Bool.or_eq_true, isPre_iff_exists, ih]
    constructor
    · rintro (⟨y, hy⟩ | ⟨x, y, hxy⟩)
      · exact ⟨[], y, by simpa using hy⟩
      · exact ⟨b :: x, y, by simp [hxy]⟩
    · rintro ⟨x, y, hxy⟩
      cases x with
      | nil =>
        left
        exact ⟨y, by simpa using hxy⟩
      | cons x0 xs =>
        right
        injection hxy with h1 h2
        exact ⟨xs, y, h2⟩

theorem containsSub_reverse {n h : List Char} (hc : containsSub n h = true) :
    containsSub n.reverse h.reverse = true := by
  rw [containsSub_parts] at hc ⊢
  obtain ⟨x, y, rfl⟩ := hc
  exact ⟨y.reverse, x.reverse, by simp⟩

theorem containsSub_dropWhile {p : Char → Bool} {n h : List Char}
    (hc : ∀ c ∈ n, p c = false) (hin : containsSub n h = true) :
    containsSub n (h.dropWhile p) = true := by
  induction h with
  | nil => simpa using hin
  | cons b bs ih =>
    rw [List.dropWhile_cons]
    split
    · next hp =>
      apply ih
      rw [show containsSub n (b :: bs) = (isPre n (b :: bs) || containsSub n bs) from rfl,
        Bool.or_eq_true] at hin
      rcases hin with hpre | hsub
      · cases n with
        | nil => exact containsSub_nil_left bs
        | cons a as =>
          simp only [isPre, Bool.and_eq_true, beq_iff_eq] at hpre
          obtain ⟨rfl, h2⟩ := hpre
          have := hc a (List.mem_cons_self a as)
          rw [this] at hp
          exact absurd hp (by simp)
      · exact hsub
    · exact hin

theorem containsSub_pyStrip {n h : List Char}
    (hsp : ∀ c ∈ n, isPySpace c = false) (hin : containsSub n h = true) :
    containsSub n (pyStrip h) = true := by
  unfold pyStrip
  have h1 := containsSub_dropWhile hsp hin
  have h2 := containsSub_reverse h1
  have hsp2 : ∀ c ∈ n.reverse, isPySpace c = false := fun c hcm =>
    hsp c (List.mem_reverse.mp hcm)
  have h3 := containsSub_dropWhile hsp2 h2
  have h4 := containsSub_reverse h3
  simpa using h4

theorem pyStrip_pyLower (l : List Char) : pyStrip (pyLower l) = pyLower (pyStrip l) := by
  have hpf : (isPySpace ∘ pyLowerChar) = isPySpace := funext isPySpace_pyLowerChar
  unfold pyStrip pyLower
  rw [List.dropWhile_map, hpf, ← List.map_reverse, List.dropWhile_map, hpf, ← List.map_reverse]

/-! ### Facts about normalization, the scan loops and deduplication -/

theorem pyEndsWith_iff (l : List Char) (c : Char) :
    pyEndsWith l c = true ↔ l.getLast? = some c := by
  unfold pyEndsWith
  cases hl : l.getLast? with
  | none => simp
  | some d => simp [beq_iff_eq]

theorem normalizeItem_last (s : List Char) : (normalizeItem s).getLast? = some '.' := by
  simp only [normalizeItem]
  split
  · next h => exact (pyEndsWith_iff _ _).mp h
  · exact List.getLast?_concat _

theorem normalizeItem_ne_nil (s : List Char) : normalizeItem s ≠ [] := by
  intro h
  have := normalizeItem_last s
  rw [h] at this
  simp at this

theorem normalizeItem_shape (c0 : Char) (cs : List Char) :
    ∃ t, normalizeItem (c0 :: cs) = pyUpperChar c0 :: t ∧
      (∀ c ∈ t, (∃ d, c = pyLowerChar d) ∨ c = '.') := by
  have hcap : pyCapitalize (c0 :: cs) = pyUpperChar c0 :: cs.map pyLowerChar := rfl
  simp only [normalizeItem, hcap]
  split
  · refine ⟨cs.map pyLowerChar, rfl, fun c hc => ?_⟩
    obtain ⟨d, _, rfl⟩ := List.mem_map.mp hc
    exact Or.inl ⟨d, rfl⟩
  · refine ⟨cs.map pyLowerChar ++ ['.'], rfl, fun c hc => ?_⟩
    rcases List.mem_append.mp hc with h1 | h2
    · obtain ⟨d, _, rfl⟩ := List.mem_map.mp h1
      exact Or.inl ⟨d, rfl⟩
    · simp only [List.mem_singleton] at h2
      exact Or.inr h2

theorem scanSentences_mem {frags : List (List Char)} {x : List Char}
    (hx : x ∈ scanSentences frags) :
    ∃ s, 5 ≤ (pyStrip s).length ∧ x = normalizeItem (pyStrip s) := by
  induction frags with
  | nil => simp [scanSentences] at hx
  | cons s rest ih =>
    simp only [scanSentences] at hx
    split at hx
    · exact ih hx
    · split at hx
      · rcases List.mem_cons.mp hx with rfl | h2
        · next h1 _ => exact ⟨s, by omega, rfl⟩
        · exact ih h2
      · exact ih hx

theorem scanSentences_ne_nil {frags : List (List Char)} {f : List Char} (hf : f ∈ frags)
    (h5 : 5 ≤ (pyStrip f).length)
    (hk : action_keywords.any (fun k => containsSub k (pyLower (pyStrip f))) = true) :
    scanSentences frags ≠ [] := by
  induction frags with
  | nil => simp at hf
  | cons s rest ih =>
    simp only [scanSentences]
    rcases List.mem_cons.mp hf with rfl | hmem
    · rw [if_neg (by omega), if_pos hk]
      simp
    · split
      · exact ih hmem
      · split
        · simp
        · exact ih hmem

theorem pointsFromFrags_mem {th : Nat} {frags : List (List Char)} {x : List Char}
    (hx : x ∈ pointsFromFrags th frags) :
    ∃ q, th < (pyStrip q).length ∧ x = normalizeItem (pyStrip q) := by
  induction frags with
  | nil => simp [pointsFromFrags] at hx
  | cons p rest ih =>
    simp only [pointsFromFrags] at hx
    split at hx
    · rcases List.mem_cons.mp hx with rfl | h2
      · next h1 => exact ⟨p, h1, rfl⟩
      · exact ih h2
    · exact ih hx

theorem dedupLoop_subset {seen l : List (List Char)} {x : List Char}
    (hx : x ∈ dedupLoop seen l) : x ∈ l := by
  induction l generalizing seen with
  | nil => simp [dedupLoop] at hx
  | cons p rest ih =>
    simp only [dedupLoop] at hx
    split at hx
    · exact List.mem_cons_of_mem p (ih hx)
    · rcases List.mem_cons.mp hx with rfl | h2
      · exact List.mem_cons_self _ _
      · exact List.mem_cons_of_mem _ (ih h2)

theorem dedupLoop_eq_keepFirst (l : List (List Char)) :
    ∀ seen, dedupLoop seen l =
      keepFirst pyLower (l.filter (fun p => decide (pyLower p ∉ seen))) := by
  induction l with
  | nil =>
    intro seen
    simp [dedupLoop, keepFirst]
  | cons p rest ih =>
    intro seen
    simp only [dedupLoop]
    rw [List.filter_cons]
    split
    · next hmem =>
      rw [if_neg (by simpa using hmem)]
      exact ih seen
    · next hnm =>
      rw [if_pos (by simpa using hnm)]
      rw [keepFirst]
      congr 1
      rw [ih (pyLower p :: seen), List.filter_filter]
      congr 1
      apply List.filter_congr
      intro b _
      by_cases h1 : pyLower b = pyLower p <;>
        by_cases h2 : pyLower b ∈ seen <;>
          simp [h1, h2, List.mem_cons]

theorem normalizeItem_props {s : List Char} (hs : s ≠ []) :
    normalizeItem s ≠ [] ∧ (normalizeItem s).getLast? = some '.' ∧
      pyUpperChar ((normalizeItem s).headD ' ') = (normalizeItem s).headD ' ' := by
  refine ⟨normalizeItem_ne_nil s, normalizeItem_last s, ?_⟩
  cases s with
  | nil => exact absurd rfl hs
  | cons c0 cs =>
    obtain ⟨tl, htl, _⟩ := normalizeItem_shape c0 cs
    rw [htl]
    simp only [List.headD_cons]
    exact pyUpperChar_fix c0

theorem summaryPoints_mem {s x : List Char} (hx : x ∈ summaryPoints s) :
    ∃ q : List Char, pyStrip q ≠ [] ∧ x = normalizeItem (pyStrip q) := by
  unfold summaryPoints at hx
  split at hx
  · simp at hx
  · obtain ⟨q, hq, rfl⟩ := pointsFromFrags_mem hx
    refine ⟨q, ?_, rfl⟩
    intro h
    rw [h] at hq
    simp at hq

theorem gatherPoints_mem {s t x : List Char} (hx : x ∈ gatherPoints s t) :
    ∃ q : List Char, pyStrip q ≠ [] ∧ x = normalizeItem (pyStrip q) := by
  simp only [gatherPoints] at hx
  split at hx
  · rcases List.mem_append.mp hx with h1 | h2
    · exact summaryPoints_mem h1
    · obtain ⟨q, hq, rfl⟩ := pointsFromFrags_mem h2
      refine ⟨q, ?_, rfl⟩
      intro h
      rw [h] at hq
      simp at hq
  · exact summaryPoints_mem hx

/-! ### The claims -/

/-- C6: for every input transcript and summary, the list returned by
`extract_action_items` and the list returned by `extract_key_points` each
have length at most 5, regardless of how many candidates matched. -/
theorem claim6_output_lists_capped_at_five :
    (∀ t : List Char, (extract_action_items t).length ≤ 5) ∧
    (∀ s t : List Char, (extract_key_points s t).length ≤ 5) := by
  constructor
  · intro t
    unfold extract_action_items
    split
    · simp
    · exact List.length_take_le 5 _
  · intro s t
    exact List.length_take_le 5 _

/-- C9: for every transcript whose trimmed length is strictly less than 10,
`create_simple_summary` returns exactly the fixed short-clip string. -/
theorem claim9_short_transcript_fixed_summary (t : List Char)
    (h : (pyStrip t).length < 10) :
    create_simple_summary t = some (chars "Short audio clip with minimal content.") := by
  unfold create_simple_summary
  rw [if_pos (Or.inr h)]

/-- Witness for C9 at the concrete transcript `"hi."`. -/
theorem claim9_short_transcript_fixed_summary_witness :
    (pyStrip (chars "hi.")).length < 10 ∧
      create_simple_summary (chars "hi.") =
        some (chars "Short audio clip with minimal content.") :=
  ⟨by decide, claim9_short_transcript_fixed_summary (chars "hi.") (by decide)⟩

/-- C8: the transcript argument of `extract_key_points` is only a fallback
source: when the summary-derived extraction already yields at least 3 points,
the result does not depend on the transcript. -/
theorem claim8_transcript_unused_when_summary_sufficient (s u v : List Char)
    (h : 3 ≤ (summaryPoints s).length) :
    extract_key_points s u = extract_key_points s v := by
  have hc1 : ¬((summaryPoints s).length < 3 ∧ u ≠ []) := fun hc => by omega
  have hc2 : ¬((summaryPoints s).length < 3 ∧ v ≠ []) := fun hc => by omega
  unfold extract_key_points gatherPoints
  rw [if_neg hc1, if_neg hc2]

/-- Witness for C8: a summary with three long sentences, two different
transcripts. -/
theorem claim8_transcript_unused_witness :
    3 ≤ (summaryPoints (chars
      "this is point number one. this is point number two. this is point number three.")).length ∧
    extract_key_points (chars
      "this is point number one. this is point number two. this is point number three.")
      (chars "x") =
    extract_key_points (chars
      "this is point number one. this is point number two. this is point number three.")
      (chars "y") :=
  ⟨by decide, claim8_transcript_unused_when_summary_sufficient (chars
      "this is point number one. this is point number two. this is point number three.")
      (chars "x") (chars "y") (by decide)⟩

/-- C7: the three operations are total over all string inputs: the summary
builder never reaches a failing sentence index (it is `isSome` on every
transcript; the two extractors contain no partial primitive and are embedded
as total functions), and the empty inputs produce the documented fallbacks. -/
theorem claim7_total_and_empty_input_fallbacks :
    (∀ t : List Char, (create_simple_summary t).isSome = true) ∧
    create_simple_summary [] = some (chars "Short audio clip with minimal content.") ∧
    extract_action_items [] = [] ∧
    extract_key_points [] [] = [] := by
  refine ⟨?_, by decide, by decide, by decide⟩
  intro t
  simp only [create_simple_summary]
  split
  · rfl
  · split
    · rfl
    · next h2 =>
      have hlen : 2 < (sentencesOf t).length := by omega
      have h0 : (sentencesOf t).get? 0 = some ((sentencesOf t).get ⟨0, by omega⟩) :=
        List.get?_eq_get (by omega)
      have hl : (sentencesOf t).get? ((sentencesOf t).length - 1) =
          some ((sentencesOf t).get ⟨(sentencesOf t).length - 1, by omega⟩) :=
        List.get?_eq_get (by omega)
      rw [if_pos (by omega), h0, hl]
      rfl

/-- C4: `extract_key_points` deduplicates the gathered points case-insensitively
keeping only the first occurrence in order and then truncates to 5 (proved
against the declarative `keepFirst`), while `extract_action_items` applies no
deduplication: a transcript with two case-variant copies of a keyword sentence
yields the same item twice. -/
theorem claim4_dedup_keypoints_not_actionitems :
    (∀ s t : List Char,
      extract_key_points s t = (keepFirst pyLower (gatherPoints s t)).take 5) ∧
    extract_action_items (chars "Please call Bob. PLEASE CALL BOB.") =
      [chars "Please call bob.", chars "Please call bob."] := by
  constructor
  · intro s t
    unfold extract_key_points
    rw [dedupLoop_eq_keepFirst]
    have hfilt : (gatherPoints s t).filter
        (fun p => decide (pyLower p ∉ ([] : List (List Char)))) = gatherPoints s t := by
      apply List.filter_eq_self.mpr
      intro a _
      simp
    rw [hfilt]
  · decide

theorem extract_action_items_mem {t x : List Char} (hx : x ∈ extract_action_items t) :
    (∃ s : List Char, pyStrip s ≠ [] ∧ x = normalizeItem (pyStrip s)) ∨
    x = chars "Follow up on meeting discussion." ∨
    x = chars "Review call notes and next steps." ∨
    x = chars "Review recording content for further action." := by
  simp only [extract_action_items] at hx
  split at hx
  · simp at hx
  · have hx2 := List.mem_of_mem_take hx
    split at hx2
    · split at hx2
      · simp only [List.mem_singleton] at hx2
        exact Or.inr (Or.inl hx2)
      · split at hx2
        · simp only [List.mem_singleton] at hx2
          exact Or.inr (Or.inr (Or.inl hx2))
        · simp only [List.mem_singleton] at hx2
          exact Or.inr (Or.inr (Or.inr hx2))
    · obtain ⟨s', h5, rfl⟩ := scanSentences_mem hx2
      refine Or.inl ⟨s', ?_, rfl⟩
      intro h
      rw [h] at h5
      simp at h5

theorem normalizeItem_tail_lower {s : List Char} (hs : s ≠ []) :
    ∀ c ∈ (normalizeItem s).tail, isAlA c = true → isLoA c = true := by
  cases s with
  | nil => exact absurd rfl hs
  | cons c0 cs =>
    obtain ⟨tl, htl, hprop⟩ := normalizeItem_shape c0 cs
    rw [htl]
    intro c hc hal
    rcases hprop c (by simpa using hc) with ⟨d, rfl⟩ | rfl
    · exact isLoA_pyLowerChar hal
    · exact absurd hal (by decide)

/-- C2 counterexample: the claim "every string in the two output lists starts
with an uppercase first character" fails on a transcript whose keyword
sentence starts with a digit: the produced item keeps `'1'` as its first
character, and `'1'` is not an uppercase character. -/
theorem claim2_counterexample :
    extract_action_items (chars "123 should go now") = [chars "123 should go now."] ∧
    startsUpper (chars "123 should go now.") = false :=
  ⟨by decide, by decide⟩

/-- C2 (amended): every string in the output of `extract_action_items` and of
`extract_key_points` is non-empty, ends with `'.'`, and its first character is
fixed by the uppercase mapping (so it is never a lowercase letter); it need not
be an uppercase letter, since `capitalize()` leaves non-letters unchanged. -/
theorem claim2_amended_item_format :
    (∀ t x : List Char, x ∈ extract_action_items t →
      x ≠ [] ∧ x.getLast? = some '.' ∧ pyUpperChar (x.headD ' ') = x.headD ' ') ∧
    (∀ s t x : List Char, x ∈ extract_key_points s t →
      x ≠ [] ∧ x.getLast? = some '.' ∧ pyUpperChar (x.headD ' ') = x.headD ' ') := by
  constructor
  · intro t x hx
    rcases extract_action_items_mem hx with ⟨s', hs, rfl⟩ | rfl | rfl | rfl
    · exact normalizeItem_props hs
    · exact ⟨by decide, by decide, by decide⟩
    · exact ⟨by decide, by decide, by decide⟩
    · exact ⟨by decide, by decide, by decide⟩
  · intro s t x hx
    unfold extract_key_points at hx
    obtain ⟨q, hq, rfl⟩ := gatherPoints_mem (dedupLoop_subset (List.mem_of_mem_take hx))
    exact normalizeItem_props hq

/-- Witness for C2 (amended), at one concrete action item and one concrete
key point. -/
theorem claim2_amended_item_format_witness :
    (chars "We should go there now." ≠ [] ∧
      (chars "We should go there now.").getLast? = some '.' ∧
      pyUpperChar ((chars "We should go there now.").headD ' ') =
        (chars "We should go there now.").headD ' ') ∧
    (chars "The quarterly report is ready." ≠ [] ∧
      (chars "The quarterly report is ready.").getLast? = some '.' ∧
      pyUpperChar ((chars "The quarterly report is ready.").headD ' ') =
        (chars "The quarterly report is ready.").headD ' ') :=
  ⟨claim2_amended_item_format.1 (chars "We should go there now")
      (chars "We should go there now.") (by decide),
   claim2_amended_item_format.2 (chars "the quarterly report is ready") (chars "")
      (chars "The quarterly report is ready.") (by decide)⟩

/-- C10: every keyword-matched action item (the fixed fallback strings are not
keyword-matched) and every extracted key point has all alphabetic characters
after its first character in lowercase, because `capitalize()` lowercases the
entire remainder of the sentence. -/
theorem claim10_remainder_lowercased :
    (∀ t x : List Char, x ∈ keywordItems t →
      ∀ c ∈ x.tail, isAlA c = true → isLoA c = true) ∧
    (∀ s t x : List Char, x ∈ extract_key_points s t →
      ∀ c ∈ x.tail, isAlA c = true → isLoA c = true) := by
  constructor
  · intro t x hx
    unfold keywordItems at hx
    obtain ⟨s', h5, rfl⟩ := scanSentences_mem hx
    refine normalizeItem_tail_lower ?_
    intro h
    rw [h] at h5
    simp at h5
  · intro s t x hx
    unfold extract_key_points at hx
    obtain ⟨q, hq, rfl⟩ := gatherPoints_mem (dedupLoop_subset (List.mem_of_mem_take hx))
    exact normalizeItem_tail_lower hq

/-- Witness for C10: the sentence "We should ask John about it" is emitted with
"john" lowercased, and the summary fragment "the Report is coming tomorrow"
yields a key point with "report" lowercased. -/
theorem claim10_remainder_lowercased_witness :
    isLoA 'j' = true ∧ isLoA 'r' = true :=
  ⟨claim10_remainder_lowercased.1 (chars "We should ask John about it")
      (chars "We should ask john about it.") (by decide) 'j' (by decide) (by decide),
   claim10_remainder_lowercased.2 (chars "the Report is coming tomorrow") (chars "")
      (chars "The report is coming tomorrow.") (by decide) 'r' (by decide) (by decide)⟩

theorem isDelim3_pyUpperChar (c : Char) : isDelim3 (pyUpperChar c) = isDelim3 c := by
  rw [Bool.eq_iff_iff, isDelim3_iff, isDelim3_iff, pyUpperChar_toNat]
  split <;> omega

theorem mem_of_mem_pyStrip {c : Char} {l : List Char} (hc : c ∈ pyStrip l) : c ∈ l := by
  unfold pyStrip at hc
  rw [List.mem_reverse] at hc
  have h2 : c ∈ (List.dropWhile isPySpace l).reverse :=
    (List.dropWhile_sublist _).subset hc
  rw [List.mem_reverse] at h2
  exact (List.dropWhile_sublist _).subset h2

theorem pyEndsWith_eq_false {l : List Char} (h : ∀ c ∈ l, isDelim3 c = false) :
    pyEndsWith l '.' = false := by
  unfold pyEndsWith
  cases hl : l.getLast? with
  | none => rfl
  | some d =>
    have hd : d ∈ l := List.mem_of_getLast?_eq_some hl
    have hdel : isDelim3 d = false := h d hd
    have hne : d ≠ '.' := by
      intro h2
      subst h2
      exact absurd hdel (by decide)
    simp [hne]

theorem pyCapitalize_no_delim {q : List Char} (hq : ∀ c ∈ q, isDelim3 c = false) :
    ∀ c ∈ pyCapitalize q, isDelim3 c = false := by
  cases q with
  | nil => simp [pyCapitalize]
  | cons c0 cs =>
    intro c hc
    rw [show pyCapitalize (c0 :: cs) = pyUpperChar c0 :: cs.map pyLowerChar from rfl] at hc
    rcases List.mem_cons.mp hc with rfl | hm
    · rw [isDelim3_pyUpperChar]
      exact hq c0 (List.mem_cons_self _ _)
    · obtain ⟨d, hd, rfl⟩ := List.mem_map.mp hm
      rw [isDelim3_pyLowerChar]
      exact hq d (List.mem_cons_of_mem _ hd)

theorem normalizeItem_eq_append {q : List Char} (hq : ∀ c ∈ q, isDelim3 c = false) :
    normalizeItem q = pyCapitalize q ++ ['.'] := by
  simp only [normalizeItem]
  rw [pyEndsWith_eq_false (pyCapitalize_no_delim hq)]
  simp

theorem pointsFromFrags_decl (th : Nat) (frags : List (List Char))
    (hf : ∀ f ∈ frags, ∀ c ∈ f, isDelim3 c = false) :
    pointsFromFrags th frags =
      ((frags.map pyStrip).filter (fun q => decide (th < q.length))).map
        (fun q => pyCapitalize q ++ ['.']) := by
  induction frags with
  | nil => rfl
  | cons p rest ih =>
    have hp : ∀ c ∈ pyStrip p, isDelim3 c = false := fun c hc =>
      hf p (List.mem_cons_self _ _) c (mem_of_mem_pyStrip hc)
    have hrest : ∀ f ∈ rest, ∀ c ∈ f, isDelim3 c = false := fun f hf2 =>
      hf f (List.mem_cons_of_mem _ hf2)
    simp only [pointsFromFrags, List.map_cons, List.filter_cons]
    split
    · next hlen =>
      rw [if_pos (by simpa using hlen), List.map_cons, normalizeItem_eq_append hp, ih hrest]
    · next hlen =>
      rw [if_neg (by simpa using hlen)]
      exact ih hrest

/-- C5 counterexample: with an empty summary (so fewer than 3 summary points)
and a non-empty transcript whose split has a leading empty fragment, the third
sentence (per the spec's segmentation: trimmed, empties discarded) is among the
first 3 sentences and is longer than 20 characters, so by the claim it should
be appended as a key point; the code instead slices the first 3 raw fragments
and appends nothing. -/
theorem claim5_counterexample :
    (summaryPoints []).length < 3 ∧
    chars ". aa. bb. a really long sentence over twenty chars" ≠ [] ∧
    (sentencesOf (chars ". aa. bb. a really long sentence over twenty chars")).take 3 =
      [chars "aa", chars "bb", chars "a really long sentence over twenty chars"] ∧
    20 < (pyStrip (chars "a really long sentence over twenty chars")).length ∧
    extract_key_points [] (chars ". aa. bb. a really long sentence over twenty chars") = [] :=
  ⟨by decide, by decide, by decide, by decide, by decide⟩

/-- C5 (amended): whenever the summary step produced fewer than 3 points and
the transcript is non-empty, only the first 3 raw fragments of the delimiter
split of the transcript (before trimming and before discarding empties) are
considered, and exactly those among them with trimmed length strictly greater
than 20 are capitalized, given the trailing period, and appended. -/
theorem claim5_amended_fallback_uses_raw_fragments (s t : List Char)
    (h3 : (summaryPoints s).length < 3) (ht : t ≠ []) :
    gatherPoints s t = summaryPoints s ++
      ((((splitRuns isDelim3 t).take 3).map pyStrip).filter
        (fun q => decide (20 < q.length))).map (fun q => pyCapitalize q ++ ['.']) := by
  simp only [gatherPoints]
  rw [if_pos ⟨h3, ht⟩]
  congr 1
  apply pointsFromFrags_decl
  intro f hf2 c hc
  exact splitRuns_mem_no_delim (List.mem_of_mem_take hf2) c hc

/-- Witness for C5 (amended) on a transcript with one short and three long
sentences (the fourth is ignored by the slice). -/
theorem claim5_amended_fallback_witness :
    (summaryPoints []).length < 3 ∧
    chars "tiny. this sentence is definitely long enough. also a long enough sentence. one more long sentence over twenty" ≠ [] ∧
    gatherPoints []
      (chars "tiny. this sentence is definitely long enough. also a long enough sentence. one more long sentence over twenty") =
      summaryPoints [] ++
      ((((splitRuns isDelim3
        (chars "tiny. this sentence is definitely long enough. also a long enough sentence. one more long sentence over twenty")).take 3).map
          pyStrip).filter
        (fun q => decide (20 < q.length))).map (fun q => pyCapitalize q ++ ['.']) :=
  ⟨by decide, by decide,
    claim5_amended_fallback_uses_raw_fragments []
      (chars "tiny. this sentence is definitely long enough. also a long enough sentence. one more long sentence over twenty")
      (by decide) (by decide)⟩

theorem isPre_head_frag {ds : Char → Bool} {m : List Char} :
    ∀ {l : List Char}, (∀ c ∈ m, ds c = false) → isPre m l = true →
      isPre m ((splitRuns ds l).headD []) = true := by
  induction m with
  | nil =>
    intro l _ _
    simp [isPre]
  | cons a as ih =>
    intro l hm hp
    cases l with
    | nil => simp [isPre] at hp
    | cons b bs =>
      simp only [isPre, Bool.and_eq_true, beq_iff_eq] at hp
      obtain ⟨rfl, h2⟩ := hp
      have hb : ds a = false := hm a (List.mem_cons_self _ _)
      obtain ⟨g, gs, hg, hg2⟩ := splitRuns_cons_not ds a bs hb
      rw [hg2]
      simp only [List.headD_cons]
      show isPre (a :: as) (a :: g) = true
      simp only [isPre, Bool.and_eq_true]
      refine ⟨by simp, ?_⟩
      have h3 := ih (fun c hc => hm c (List.mem_cons_of_mem _ hc)) h2
      rw [hg] at h3
      simpa using h3

theorem containsSub_cons_of (n : List Char) (c : Char) (h : List Char)
    (hc : containsSub n h = true) : containsSub n (c :: h) = true := by
  rw [show containsSub n (c :: h) = (isPre n (c :: h) || containsSub n h) from rfl]
  simp [hc]

theorem containsSub_splitRuns {ds : Char → Bool} {n : List Char} (hne : n ≠ [])
    (hnd : ∀ c ∈ n, ds c = false) :
    ∀ {l : List Char}, containsSub n l = true →
      ∃ f ∈ splitRuns ds l, containsSub n f = true := by
  intro l
  induction l with
  | nil =>
    intro hin
    cases n with
    | nil => exact absurd rfl hne
    | cons a as => simp [containsSub, isPre] at hin
  | cons c cs ih =>
    intro hin
    rw [show containsSub n (c :: cs) = (isPre n (c :: cs) || containsSub n cs) from rfl,
      Bool.or_eq_true] at hin
    cases hc : ds c with
    | true =>
      have hin2 : containsSub n cs = true := by
        rcases hin with hpre | hsub
        · cases n with
          | nil => exact absurd rfl hne
          | cons a as =>
            simp only [isPre, Bool.and_eq_true, beq_iff_eq] at hpre
            obtain ⟨rfl, _⟩ := hpre
            rw [hnd a (List.mem_cons_self _ _)] at hc
            exact absurd hc (by simp)
        · exact hsub
      obtain ⟨f, hf, hcf⟩ := ih hin2
      cases cs with
      | nil =>
        simp only [splitRuns, List.mem_singleton] at hf
        subst hf
        cases n with
        | nil => exact absurd rfl hne
        | cons a as => simp [containsSub, isPre] at hcf
      | cons d rest =>
        cases hd : ds d with
        | true =>
          rw [splitRuns_delim_delim ds c d rest hc hd]
          exact ⟨f, hf, hcf⟩
        | false =>
          rw [splitRuns_delim_not ds c d rest hc hd]
          exact ⟨f, List.mem_cons_of_mem _ hf, hcf⟩
    | false =>
      obtain ⟨g, gs, hg, hg2⟩ := splitRuns_cons_not ds c cs hc
      rw [hg2]
      rcases hin with hpre | hsub
      · have h2 := isPre_head_frag hnd hpre
        rw [hg2] at h2
        simp only [List.headD_cons] at h2
        refine ⟨c :: g, List.mem_cons_self _ _, ?_⟩
        rw [show containsSub n (c :: g) = (isPre n (c :: g) || containsSub n g) from rfl]
        simp [h2]
      · obtain ⟨f, hf, hcf⟩ := ih hsub
        rw [hg] at hf
        rcases List.mem_cons.mp hf with rfl | hmem
        · exact ⟨c :: f, List.mem_cons_self _ _, containsSub_cons_of n c f hcf⟩
        · exact ⟨f, List.mem_cons_of_mem _ hmem, hcf⟩

theorem sentencesOf_mem {t x : List Char} (hx : x ∈ sentencesOf t) :
    x ≠ [] ∧ ∀ c ∈ x, isDelim3 c = false := by
  unfold sentencesOf at hx
  obtain ⟨hmem, hfilt⟩ := List.mem_filter.mp hx
  obtain ⟨f, hf, rfl⟩ := List.mem_map.mp hmem
  exact ⟨by simpa using hfilt,
    fun c hc => splitRuns_mem_no_delim hf c (mem_of_mem_pyStrip hc)⟩

/-- C3: any transcript containing "meeting" case-insensitively necessarily has
a keyword-matched sentence, because "meeting" is itself a keyword, contains no
delimiter and no whitespace, and so survives segmentation and stripping into
one scanned sentence of length at least 7; hence the keyword scan is never
empty for such transcripts, and the claim holds: if the scan were empty, the
fallback would return exactly the single meeting item. -/
theorem claim3_meeting_fallback (t : List Char)
    (hm : containsSub (chars "meeting") (pyLower t) = true) :
    keywordItems t ≠ [] ∧
      (keywordItems t = [] →
        extract_action_items t = [chars "Follow up on meeting discussion."]) := by
  constructor
  · have hmdelim : ∀ c ∈ chars "meeting", isDelim3 c = false := by decide
    have hmspace : ∀ c ∈ chars "meeting", isPySpace c = false := by decide
    have hmne : chars "meeting" ≠ [] := by decide
    obtain ⟨g, hg, hcg⟩ := containsSub_splitRuns hmne hmdelim hm
    rw [show pyLower t = t.map pyLowerChar from rfl,
      splitRuns_map isDelim3_pyLowerChar] at hg
    obtain ⟨f, hf, rfl⟩ := List.mem_map.mp hg
    have h1 : containsSub (chars "meeting") (pyStrip (List.map pyLowerChar f)) = true :=
      containsSub_pyStrip hmspace hcg
    have h1b : containsSub (chars "meeting") (pyLower (pyStrip f)) = true := by
      rw [show pyStrip (List.map pyLowerChar f) = pyStrip (pyLower f) from rfl,
        pyStrip_pyLower] at h1
      exact h1
    have hlen : 7 ≤ (pyLower (pyStrip f)).length := by
      rw [containsSub_parts] at h1b
      obtain ⟨x, y, hxy⟩ := h1b
      have hxl : (x ++ chars "meeting" ++ y).length = (pyLower (pyStrip f)).length := by
        rw [hxy]
      simp only [List.length_append] at hxl
      have h7 : (chars "meeting").length = 7 := by decide
      omega
    have hlen2 : 5 ≤ (pyStrip f).length := by
      have hml : (pyLower (pyStrip f)).length = (pyStrip f).length := List.length_map _ _
      omega
    have hany : action_keywords.any (fun k => containsSub k (pyLower (pyStrip f))) = true := by
      rw [List.any_eq_true]
      exact ⟨chars "meeting", by decide, h1b⟩
    exact scanSentences_ne_nil hf hlen2 hany
  · intro h0
    have htne : t ≠ [] := by
      intro h2
      subst h2
      exact absurd hm (by decide)
    simp only [extract_action_items]
    rw [if_neg htne, if_pos ⟨h0, htne⟩, if_pos hm]
    rfl

/-- Witness for C3: a transcript that contains "meeting"; the first conjunct of
the theorem shows its keyword scan is non-empty. -/
theorem claim3_meeting_fallback_witness :
    containsSub (chars "meeting") (pyLower (chars "The meeting went well")) = true ∧
    keywordItems (chars "The meeting went well") ≠ [] :=
  ⟨by decide, (claim3_meeting_fallback (chars "The meeting went well") (by decide)).1⟩

/-- C1 counterexample: the transcript `"a. b. c."` segments into 3 sentences,
yet `create_simple_summary` returns the short-clip fallback (its trimmed length
is 8 < 10), not the "The audio discusses ..." string the claim requires. -/
theorem claim1_counterexample :
    (sentencesOf (chars "a. b. c.")).length = 3 ∧
    create_simple_summary (chars "a. b. c.") =
      some (chars "Short audio clip with minimal content.") ∧
    create_simple_summary (chars "a. b. c.") ≠
      some (chars "The audio discusses a and concludes with c.") :=
  ⟨by decide, by decide, by decide⟩

/-- C1 (amended): for every transcript with trimmed length at least 10 whose
segmentation yields at least 3 sentences, `create_simple_summary` returns
"The audio discusses {first, lowercased} and concludes with
{last, lowercased}." — the conclusion clause is always appended, because with 3
or more sentences a (positionally distinct) last sentence always exists and is
non-empty — and the result ends with a single trailing period (the lowercased
last sentence never ends in `'.'`). -/
theorem claim1_amended_long_transcript_summary (t : List Char)
    (h10 : 10 ≤ (pyStrip t).length) (h3 : 3 ≤ (sentencesOf t).length) :
    create_simple_summary t =
      some (chars "The audio discusses " ++ pyLower ((sentencesOf t).headD []) ++
        chars " and concludes with " ++ pyLower ((sentencesOf t).getLastD []) ++
        chars ".") ∧
    pyEndsWith (pyLower ((sentencesOf t).getLastD [])) '.' = false := by
  have hne : sentencesOf t ≠ [] := by
    intro h
    rw [h] at h3
    simp at h3
  have hlast_mem : (sentencesOf t).getLastD [] ∈ sentencesOf t := by
    cases hs : sentencesOf t with
    | nil => exact absurd hs hne
    | cons a rest =>
      rw [List.getLastD_eq_getLast?]
      cases hgl : (a :: rest).getLast? with
      | none => simp at hgl
      | some y =>
        simp only [Option.getD_some]
        exact List.mem_of_getLast?_eq_some hgl
  obtain ⟨hlpne, hnodelim⟩ := sentencesOf_mem hlast_mem
  constructor
  · simp only [create_simple_summary]
    rw [if_neg ?hcond]
    case hcond =>
      rintro (rfl | hlt)
      · rw [show pyStrip ([] : List Char) = [] from rfl] at h10
        simp at h10
      · omega
    rw [if_neg (by omega)]
    have h0 : (sentencesOf t).get? 0 = some ((sentencesOf t).headD []) := by
      cases hs : sentencesOf t with
      | nil => exact absurd hs hne
      | cons a rest => rfl
    have hl : (sentencesOf t).get? ((sentencesOf t).length - 1) =
        some ((sentencesOf t).getLastD []) := by
      rw [List.get?_eq_getElem?, ← List.getLast?_eq_getElem?, List.getLastD_eq_getLast?]
      cases hs : sentencesOf t with
      | nil => exact absurd hs hne
      | cons a rest =>
        cases hgl : (a :: rest).getLast? with
        | none => simp at hgl
        | some y => simp
    rw [if_pos (by omega), h0, hl]
    show some _ = some _
    rw [if_pos hlpne]
  · apply pyEndsWith_eq_false
    intro c hc
    obtain ⟨d, hd, rfl⟩ := List.mem_map.mp hc
    rw [isDelim3_pyLowerChar]
    exact hnodelim d hd

/-- Witness for C1 (amended) on a three-sentence transcript. -/
theorem claim1_amended_long_transcript_summary_witness :
    10 ≤ (pyStrip (chars "first thing here. second one. third part")).length ∧
    3 ≤ (sentencesOf (chars "first thing here. second one. third part")).length ∧
    (create_simple_summary (chars "first thing here. second one. third part") =
      some (chars "The audio discusses " ++
        pyLower ((sentencesOf (chars "first thing here. second one. third part")).headD []) ++
        chars " and concludes with " ++
        pyLower ((sentencesOf (chars "first thing here. second one. third part")).getLastD []) ++
        chars ".") ∧
    pyEndsWith (pyLower
      ((sentencesOf (chars "first thing here. second one. third part")).getLastD []))
      '.' = false) :=
  ⟨by decide, by decide,
    claim1_amended_long_transcript_summary
      (chars "first thing here. second one. third part") (by decide) (by decide)⟩

